import Mathlib

/-!
Verification development for the dividend-history service
(scrape–normalize–merge–persist–cache pipeline plus batch orchestration).

The TypeScript service is shallowly embedded here:

* JavaScript strings are `String` (a wrapper around `List Char`); the
  JavaScript primitives the service relies on (`trim`, `split`, relational
  string comparison, decimal rendering of numbers) are embedded as
  executable functions on `List Char` with the standard code-unit
  semantics (for the BMP characters the service handles, JavaScript
  UTF-16 code units and Lean code points agree).
* `Array.prototype.sort` is stable (ECMA-262); with the descending
  comparator used by the service it is embedded as the stable
  `List.insertionSort` with the matching total preorder.
* The network, the HTML parsing library and the file system are external
  collaborators: a fetch attempt is a `FetchResult` value, the two
  extraction strategies are function parameters, and the file system is a
  map from paths to file contents threaded through `ServiceState`.
* Thrown exceptions are `Except` errors; `HarvestError` mirrors the
  exception classes and messages the service throws.
-/

/-- Whitespace test used by the embedded JavaScript `trim` (space, tab,
newline, carriage return — the whitespace characters that can occur in the
service's data). -/
def isWs (c : Char) : Bool := c == ' ' || c == '\t' || c == '\n' || c == '\r'

/-- Embedded JavaScript `String.prototype.trim`: drop leading and trailing
whitespace. -/
def trimChars (l : List Char) : List Char :=
  ((l.dropWhile isWs).reverse.dropWhile isWs).reverse

/-- The embedded `trim` on `String`. -/
def jsTrim (s : String) : String := String.mk (trimChars s.data)

/-- Embedded JavaScript relational comparison of strings (`<` / `>` /
`localeCompare` on the service's fixed-width ISO date strings): strict
lexicographic comparison by code unit. -/
def charsLt : List Char → List Char → Bool
  | [], [] => false
  | [], _ :: _ => true
  | _ :: _, [] => false
  | c :: cs, d :: ds => if c < d then true else if c = d then charsLt cs ds else false

/-- String-level wrapper for `charsLt`; `strLt a b` embeds the JavaScript
comparison `a < b`. -/
def strLt (a b : String) : Bool := charsLt a.data b.data

/-- One dividend distribution record (the `DividendHistory` record type of
`stock-analysis.service`). -/
structure DividendHistory where
  exDividendDate : String
  cashAmount : String
  recordDate : String
  payDate : String
deriving DecidableEq

/-- The ordering used by the service's descending sort: `a` may precede `b`
exactly when `a.exDividendDate` is not smaller than `b.exDividendDate`
(the comparator `(a, b) => b.exDividendDate.localeCompare(a.exDividendDate)`). -/
def descR (a b : DividendHistory) : Prop :=
  strLt a.exDividendDate b.exDividendDate = false

instance : DecidableRel descR := fun _ _ => inferInstanceAs (Decidable (_ = false))

/-- The service's `sort((a, b) => b.exDividendDate.localeCompare(a.exDividendDate))`:
a stable sort in descending `exDividendDate` order, embedded as the stable
insertion sort over `descR`. -/
def sortDesc (l : List DividendHistory) : List DividendHistory :=
  List.insertionSort descR l

/-- Embedding of `mergeDividends` from `stock-analysis.service`: merges freshly harvested
records with the persisted ones, admitting only harvested records strictly
newer than the newest existing date, and returns the result sorted
descending. -/
def mergeDividends (existing newData : List DividendHistory) : List DividendHistory :=
  match existing with
  | [] => sortDesc newData
  | first :: _ =>
    let latestExistingDate := first.exDividendDate
    let newerEntries := newData.filter fun d => strLt latestExistingDate d.exDividendDate
    sortDesc (newerEntries ++ existing)

/-- Regex replace of every double quote by a doubled double quote
(`value.replace(/"/g, '""')` in `saveToCsv`). -/
def doubleQuotes : List Char → List Char
  | [] => []
  | c :: cs => if c = '"' then '"' :: '"' :: doubleQuotes cs else c :: doubleQuotes cs

/-- Embedding of `escapeCsv` from `saveToCsv`: wrap the value in double quotes (doubling
inner quotes) when it contains a comma, a double quote or a newline;
otherwise emit it verbatim. -/
def escapeCsv (value : String) : List Char :=
  if ',' ∈ value.data ∨ '"' ∈ value.data ∨ '\n' ∈ value.data then
    '"' :: (doubleQuotes value.data ++ ['"'])
  else value.data

/-- One encoded CSV row of `saveToCsv`: the four escaped fields joined by
commas. -/
def recordLine (d : DividendHistory) : List Char :=
  escapeCsv d.exDividendDate ++ ',' ::
    (escapeCsv d.cashAmount ++ ',' ::
      (escapeCsv d.recordDate ++ ',' :: escapeCsv d.payDate))

/-- The fixed CSV header line written by `saveToCsv` (without the trailing
newline). -/
def headerLine : List Char := "Ex-Dividend Date,Cash Amount,Record Date,Pay Date".data

/-- Embedded `Array.prototype.join('\n')`. -/
def joinRows : List (List Char) → List Char
  | [] => []
  | [r] => r
  | r :: rs => r ++ '\n' :: joinRows rs

/-- The full file text produced by `saveToCsv`: header (with newline)
followed by the newline-joined rows, no trailing newline. -/
def saveToCsvContent (dividends : List DividendHistory) : List Char :=
  headerLine ++ '\n' :: joinRows (dividends.map recordLine)

/-- Embedded JavaScript `String.prototype.split(sep)` for a one-character
separator. -/
def splitOnChar (sep : Char) : List Char → List (List Char)
  | [] => [[]]
  | c :: cs =>
    if c = sep then [] :: splitOnChar sep cs
    else
      match splitOnChar sep cs with
      | [] => [[c]]
      | l :: ls => (c :: l) :: ls

/-- The character loop of `parseCsvLine`: a double quote toggles quote mode
(and is dropped), a comma outside quotes ends the current value (pushed
trimmed), any other character is appended; the final value is pushed only
when non-empty. -/
def parseChars : List Char → List Char → Bool → List String
  | [], current, _ =>
    if current.isEmpty then [] else [String.mk (trimChars current)]
  | c :: cs, current, inQuotes =>
    if c = '"' then parseChars cs current (!inQuotes)
    else if c = ',' ∧ inQuotes = false then
      String.mk (trimChars current) :: parseChars cs [] false
    else parseChars cs (current ++ [c]) inQuotes

/-- Embedding of `parseCsvLine` from `stock-analysis.service`. -/
def parseCsvLine (line : String) : List String := parseChars line.data [] false

/-- One decoded row of `readExistingCsv`: trim the line, tokenize it, and
build a record from the first four values when at least four are present
(otherwise the line is skipped). -/
def lineToRecord (l : List Char) : Option DividendHistory :=
  match parseChars (trimChars l) [] false with
  | v0 :: v1 :: v2 :: v3 :: _ =>
    some { exDividendDate := v0, cashAmount := v1, recordDate := v2, payDate := v3 }
  | _ => none

/-- The decoding part of `readExistingCsv`: split into lines, keep the
non-blank ones, drop the header, and decode each remaining line (fewer than
two non-blank lines yield an empty history). -/
def readCsvContent (content : List Char) : List DividendHistory :=
  let lines := (splitOnChar '\n' content).filter fun l => !(trimChars l).isEmpty
  if lines.length < 2 then []
  else (lines.drop 1).filterMap lineToRecord

/-- A field value that the codec's decoder can reproduce: it contains no
double quote and no newline, and it carries no leading or trailing
whitespace (it equals its own trim). -/
def cleanField (f : String) : Prop :=
  '"' ∉ f.data ∧ '\n' ∉ f.data ∧ trimChars f.data = f.data

instance (f : String) : Decidable (cleanField f) := by
  unfold cleanField; infer_instance

/-- A record all four fields of which are clean in the sense of
`cleanField`. -/
def cleanRecord (d : DividendHistory) : Prop :=
  cleanField d.exDividendDate ∧ cleanField d.cashAmount ∧
    cleanField d.recordDate ∧ cleanField d.payDate

instance (d : DividendHistory) : Decidable (cleanRecord d) := by
  unfold cleanRecord; infer_instance

/-- Decimal digit character (the digits emitted by JavaScript number
rendering). -/
def decDigit : Nat → Char
  | 0 => '0' | 1 => '1' | 2 => '2' | 3 => '3' | 4 => '4'
  | 5 => '5' | 6 => '6' | 7 => '7' | 8 => '8' | _ => '9'

/-- Numeric value of a decimal digit character. -/
def digitVal (c : Char) : Nat := c.toNat - 48

/-- Decimal digit test (the `\d` character class). -/
def isDigit (c : Char) : Bool := decide (48 ≤ c.toNat ∧ c.toNat ≤ 57)

/-- Fuel-driven digit accumulator behind `natDigits` (structural recursion,
so that the kernel can evaluate it; the fuel is always sufficient). -/
def natDigitsGo : Nat → Nat → List Char → List Char
  | 0, _, acc => acc
  | fuel + 1, n, acc =>
    if n < 10 then decDigit n :: acc
    else natDigitsGo fuel (n / 10) (decDigit (n % 10) :: acc)

/-- Decimal digits of a natural number, most significant first: the
embedding of JavaScript `String(n)` for non-negative integers. -/
def natDigits (n : Nat) : List Char := natDigitsGo (n + 1) n []

/-- Embedded JavaScript `String(n)`. -/
def natToString (n : Nat) : String := String.mk (natDigits n)

/-- Digit characters of `pad2`: the decimal rendering left-padded with '0'
to two characters (`String(n).padStart(2, '0')`). -/
def pad2Chars (n : Nat) : List Char :=
  if n < 10 then '0' :: natDigits n else natDigits n

/-- Embedded `String(n).padStart(2, '0')`. -/
def pad2 (n : Nat) : String := String.mk (pad2Chars n)

/-- Numeric value of a string of decimal digits, most significant first. -/
def digitsToNat (ds : List Char) : Nat :=
  ds.foldl (fun a c => a * 10 + digitVal c) 0

/-- The three-letter month abbreviation of month `m` (1-based), as rendered
in the upstream "Mon DD, YYYY" dates. -/
def monthAbbrevChars : Nat → List Char
  | 1 => "Jan".data | 2 => "Feb".data | 3 => "Mar".data | 4 => "Apr".data
  | 5 => "May".data | 6 => "Jun".data | 7 => "Jul".data | 8 => "Aug".data
  | 9 => "Sep".data | 10 => "Oct".data | 11 => "Nov".data | 12 => "Dec".data
  | _ => []

/-- Index search of a month abbreviation in the month table. -/
def monthLookup : Nat → Nat → List Char → Option Nat
  | _, 0, _ => none
  | i, fuel + 1, cs => if cs = monthAbbrevChars i then some i else monthLookup (i + 1) fuel cs

/-- Month number (1–12) of a three-letter abbreviation, `none` when the
abbreviation is not a month name. -/
def monthFromAbbrev (cs : List Char) : Option Nat := monthLookup 1 12 cs

/-- Gregorian leap-year rule. -/
def isLeapYear (y : Nat) : Bool := decide (y % 4 = 0 ∧ (y % 100 ≠ 0 ∨ y % 400 = 0))

/-- Days in month `m` of year `y`. -/
def daysInMonth (y m : Nat) : Nat :=
  if m = 2 then (if isLeapYear y then 29 else 28)
  else if m = 4 ∨ m = 6 ∨ m = 9 ∨ m = 11 then 30 else 31

/-- Validity of a calendar date with a four-digit year. -/
def validDate (y m d : Nat) : Prop :=
  1000 ≤ y ∧ y ≤ 9999 ∧ 1 ≤ m ∧ m ≤ 12 ∧ 1 ≤ d ∧ d ≤ daysInMonth y m

instance (y m d : Nat) : Decidable (validDate y m d) := by
  unfold validDate; infer_instance

/-- Models the host `new Date(text)` parser on the "Mon DD, YYYY" format
class named by `formatDateToIso`'s own documentation (a three-letter month
abbreviation, a one- or two-digit day, a comma and space, and a four-digit
year denoting a valid calendar date). Host behaviour on other formats is an
external collaborator outside this model; parse failure is `none`. -/
def jsDateParse (s : String) : Option (Nat × Nat × Nat) :=
  match s.data with
  | c1 :: c2 :: c3 :: c4 :: rest =>
    if c4 = ' ' then
      match monthFromAbbrev [c1, c2, c3] with
      | none => none
      | some m =>
        let dcs := rest.takeWhile isDigit
        let rest1 := rest.dropWhile isDigit
        if dcs.length = 1 ∨ dcs.length = 2 then
          match rest1 with
          | r1 :: r2 :: rest2 =>
            if r1 = ',' ∧ r2 = ' ' then
              let ycs := rest2.takeWhile isDigit
              let rest3 := rest2.dropWhile isDigit
              if ycs.length = 4 ∧ rest3 = [] then
                let d := digitsToNat dcs
                let y := digitsToNat ycs
                if validDate y m d then some (y, m, d) else none
              else none
            else none
          | _ => none
        else none
    else none
  | _ => none

/-- Canonical "Mon DD, YYYY" rendering of a calendar date, the input class
named by the specification (e.g. "Oct 31, 2025"). -/
def renderMonDD (m d y : Nat) : String :=
  String.mk (monthAbbrevChars m ++ ' ' :: (natDigits d ++ ',' :: ' ' :: natDigits y))

/-- The zero-padded `YYYY-MM-DD` rendering of a parsed date. -/
def isoForm (y m d : Nat) : String :=
  String.mk (natDigits y ++ '-' :: (pad2Chars m ++ '-' :: pad2Chars d))

/-- Embedding of `formatDateToIso` from `stock-analysis.service` (the Record Normalizer's
`normalizeDate`): empty or whitespace input is returned unchanged,
unparseable input is returned unchanged, and a parsed date is formatted as
zero-padded `YYYY-MM-DD`. The embedding is a total function: the source's
try/catch guarantees the function never raises. -/
def formatDateToIso (dateStr : String) : String :=
  if jsTrim dateStr = "" then dateStr
  else
    match jsDateParse (jsTrim dateStr) with
    | none => dateStr
    | some (y, m, d) => natToString y ++ "-" ++ pad2 m ++ "-" ++ pad2 d

/-- ASCII upper-casing of one character (the service's tickers are ASCII
symbols, so JavaScript `toUpperCase` is ASCII case mapping on them). -/
def asciiUpper (c : Char) : Char :=
  if 97 ≤ c.toNat ∧ c.toNat ≤ 122 then Char.ofNat (c.toNat - 32) else c

/-- ASCII lower-casing of one character. -/
def asciiLower (c : Char) : Char :=
  if 65 ≤ c.toNat ∧ c.toNat ≤ 90 then Char.ofNat (c.toNat + 32) else c

/-- Embedded `ticker.toUpperCase()`. -/
def jsToUpper (s : String) : String := String.mk (s.data.map asciiUpper)

/-- Embedded `ticker.toLowerCase()`. -/
def jsToLower (s : String) : String := String.mk (s.data.map asciiLower)

/-- One cache entry: expiry timestamp in milliseconds and the cached
history. -/
structure CacheEntry where
  expiresAtMs : Nat
  data : List DividendHistory
deriving DecidableEq

/-- The cache TTL of `stock-analysis.service` (one hour in milliseconds). -/
def defaultTtlMs : Nat := 60 * 60 * 1000

/-- The cache read of `getDividendHistory`: the stored data is returned only
when the entry exists and `now` is strictly before its expiry; otherwise the
lookup is a miss. -/
def cacheGet (cache : String → Option CacheEntry) (key : String) (now : Nat) :
    Option (List DividendHistory) :=
  match cache key with
  | some cached => if now < cached.expiresAtMs then some cached.data else none
  | none => none

/-- The cache write of `getDividendHistory`:
`cache.set(key, { expiresAtMs: now + ttl, data })`. -/
def cachePut (cache : String → Option CacheEntry) (key : String)
    (d : List DividendHistory) (now ttl : Nat) : String → Option CacheEntry :=
  fun k => if k = key then some { expiresAtMs := now + ttl, data := d } else cache k

/-- Outcome of one fetch attempt against the upstream document (the external
network collaborator): a fetched document body, an HTTP error status, or a
transport failure with an error message. -/
inductive FetchResult where
  | success (doc : String)
  | httpError (status : Nat)
  | networkError (msg : String)
deriving DecidableEq

/-- The exceptions thrown by the service, with their messages:
`BadRequestException` for a missing ticker, `BadRequestException` for an
upstream 404, `InternalServerErrorException` for a document with no
extractable rows, and `InternalServerErrorException` for any other upstream
failure. -/
inductive HarvestError where
  | invalidInput (msg : String)
  | notFound (msg : String)
  | extractionFailed (msg : String)
  | upstream (msg : String)
deriving DecidableEq

/-- Message carried by a thrown error (`error?.message`). -/
def errMessage : HarvestError → String
  | .invalidInput m => m
  | .notFound m => m
  | .extractionFailed m => m
  | .upstream m => m

/-- The harvest part of `getDividendHistory`: run the primary extraction
strategy on a fetched document, fall back to the secondary strategy when it
yields nothing, fail with the extraction error when both yield nothing;
classify a 404 as not-found and any other fetch failure as an upstream
error. The two extraction strategies (the cheerio table scans) are external
collaborators passed as functions. -/
def harvestDividends (extractPrimary extractFallback : String → List DividendHistory)
    (ticker : String) (fetch : FetchResult) : Except HarvestError (List DividendHistory) :=
  match fetch with
  | .success doc =>
    let dividends := extractPrimary doc
    let dividends := if dividends.isEmpty then extractFallback doc else dividends
    if dividends.isEmpty then
      .error (.extractionFailed "Could not find dividend history table on the page")
    else .ok dividends
  | .httpError status =>
    if status = 404 then
      .error (.notFound ("ETF ticker " ++ "\"" ++ ticker ++ "\"" ++ " not found on stockanalysis.com"))
    else .error (.upstream ("Request failed with status code " ++ natToString status))
  | .networkError msg =>
    .error (.upstream (if msg = "" then "Failed to fetch dividend history from stockanalysis.com" else msg))

/-- Process state of the service: the in-process cache and the file system
(a map from file paths to file contents). -/
structure ServiceState where
  cache : String → Option CacheEntry
  fs : String → Option (List Char)

/-- The per-ticker CSV file path: `{outputDir}/{ticker_lowercased}_dividends.csv`,
with `src/data` as the default directory. -/
def filePathFor (outputDir : Option String) (ticker : String) : String :=
  (match outputDir with
   | some dir => dir
   | none => "src/data") ++ "/" ++ jsToLower ticker ++ "_dividends.csv"

/-- Embedding of `saveToCsv`: write the encoded history to the ticker's file, replacing
any previous contents (write failures are logged and swallowed by the
source, so the embedded write always succeeds). -/
def saveToCsvFs (st : ServiceState) (ticker : String) (dividends : List DividendHistory)
    (outputDir : Option String) : ServiceState :=
  { st with
    fs := fun p =>
      if p = filePathFor outputDir ticker then some (saveToCsvContent dividends)
      else st.fs p }

/-- Embedding of `csvExists`: whether the ticker's CSV file exists. -/
def csvExistsFs (st : ServiceState) (ticker : String) (outputDir : Option String) : Bool :=
  (st.fs (filePathFor outputDir ticker)).isSome

/-- Embedding of `readExistingCsv`: decode the ticker's CSV file, with a missing or
unreadable file degrading to an empty history. -/
def readExistingCsvFs (st : ServiceState) (ticker : String) (outputDir : Option String) :
    List DividendHistory :=
  match st.fs (filePathFor outputDir ticker) with
  | some content => readCsvContent content
  | none => []

/-- Embedding of `getDividendHistory` from `stock-analysis.service`: reject an empty
ticker; on a fresh cache entry return the cached history (first re-saving
it to the output directory when one is supplied); otherwise harvest,
merge with the persisted history when the file exists (else just sort
descending), persist, cache for one hour, and return the result. -/
def getDividendHistory (extractPrimary extractFallback : String → List DividendHistory)
    (fetch : FetchResult) (ticker : String) (outputDir : Option String) (now : Nat)
    (st : ServiceState) : Except HarvestError (List DividendHistory × ServiceState) :=
  if ticker = "" then .error (.invalidInput "ticker is required")
  else
    let tickerUpper := jsToUpper ticker
    match cacheGet st.cache tickerUpper now with
    | some cachedData =>
      match outputDir with
      | some _ => .ok (cachedData, saveToCsvFs st tickerUpper cachedData outputDir)
      | none => .ok (cachedData, st)
    | none =>
      match harvestDividends extractPrimary extractFallback ticker fetch with
      | .error e => .error e
      | .ok dividends =>
        let finalDividends :=
          if csvExistsFs st tickerUpper outputDir then
            mergeDividends (readExistingCsvFs st tickerUpper outputDir) dividends
          else sortDesc dividends
        let st1 := saveToCsvFs st tickerUpper finalDividends outputDir
        let st2 := { st1 with cache := cachePut st1.cache tickerUpper finalDividends now defaultTtlMs }
        .ok (finalDividends, st2)

/-- One per-ticker outcome of the Batch Orchestrator. -/
structure BatchOutcome where
  ticker : String
  success : Bool
  error : Option String
deriving DecidableEq

/-- Embedding of `readTickersFromCsv`: the tickers listed in the first column of a
manifest file (skipping the header row); a manifest with fewer than two
non-blank lines is rejected. -/
def readTickersFromCsv (content : String) : Except String (List String) :=
  let lines := (splitOnChar '\n' content.data).filter fun l => !(trimChars l).isEmpty
  if lines.length < 2 then
    .error "CSV file must have at least a header and one data row"
  else
    .ok ((lines.drop 1).filterMap fun line =>
      match splitOnChar ',' (trimChars line) with
      | [] => none
      | c0 :: _ =>
        let ticker := trimChars c0
        if ticker.isEmpty then none else some (String.mk ticker))

/-- The per-ticker loop of `processTickersFromCsv`: run the single-ticker
pipeline for each ticker in order, recording a success outcome or a failure
outcome with the error's message (defaulting to "Unknown error" when the
message is empty) and continuing with the next ticker. `fetchFor` gives the
fetch outcome of each ticker's network request. -/
def processTickers (extractPrimary extractFallback : String → List DividendHistory)
    (fetchFor : String → FetchResult) (outputDir : Option String) (now : Nat)
    (st : ServiceState) : List String → List BatchOutcome × ServiceState
  | [] => ([], st)
  | ticker :: rest =>
    match getDividendHistory extractPrimary extractFallback (fetchFor ticker) ticker outputDir now st with
    | .ok (_, st1) =>
      let r := processTickers extractPrimary extractFallback fetchFor outputDir now st1 rest
      ({ ticker := ticker, success := true, error := none } :: r.1, r.2)
    | .error e =>
      let m := errMessage e
      let r := processTickers extractPrimary extractFallback fetchFor outputDir now st rest
      ({ ticker := ticker, success := false,
         error := some (if m = "" then "Unknown error" else m) } :: r.1, r.2)

/-- Embedding of `processTickersFromCsv` from `stock-analysis.service`: read the manifest
and run the pipeline over its tickers, collecting one outcome per ticker. -/
def processTickersFromCsv (extractPrimary extractFallback : String → List DividendHistory)
    (fetchFor : String → FetchResult) (content : String) (outputDir : String) (now : Nat)
    (st : ServiceState) : Except String (List BatchOutcome × ServiceState) :=
  match readTickersFromCsv content with
  | .error e => .error e
  | .ok tickers =>
    .ok (processTickers extractPrimary extractFallback fetchFor (some outputDir) now st tickers)

/-! ### Order facts for the embedded string comparison -/

theorem charsLt_irrefl (l : List Char) : charsLt l l = false := by
  induction l with
  | nil => rfl
  | cons c cs ih => simp [charsLt, lt_irrefl, ih]

theorem charsLt_trans {a b c : List Char} (hab : charsLt a b = true)
    (hbc : charsLt b c = true) : charsLt a c = true := by
  induction a generalizing b c with
  | nil =>
    cases b with
    | nil => simp [charsLt] at hab
    | cons d ds =>
      cases c with
      | nil => simp [charsLt] at hbc
      | cons e es => simp [charsLt]
  | cons x xs ih =>
    cases b with
    | nil => simp [charsLt] at hab
    | cons d ds =>
      cases c with
      | nil => simp [charsLt] at hbc
      | cons e es =>
        simp only [charsLt] at hab hbc ⊢
        rcases lt_trichotomy x d with h1 | h1 | h1
        · rcases lt_trichotomy d e with h2 | h2 | h2
          · simp [lt_trans h1 h2]
          · subst h2; simp [h1]
          · simp [h1, not_lt_of_gt h1, ne_of_gt h1] at hab
            simp [h2, not_lt_of_gt h2, ne_of_gt h2] at hbc
        · subst h1
          rcases lt_trichotomy x e with h2 | h2 | h2
          · simp [h2]
          · subst h2
            simp [lt_irrefl] at hab hbc ⊢
            exact ih hab hbc
          · simp [not_lt_of_gt h2, ne_of_gt h2] at hbc
        · simp [not_lt_of_gt h1, ne_of_gt h1] at hab

theorem charsLt_eq_of_not_lt {a b : List Char} (hab : charsLt a b = false)
    (hba : charsLt b a = false) : a = b := by
  induction a generalizing b with
  | nil =>
    cases b with
    | nil => rfl
    | cons d ds => simp [charsLt] at hab
  | cons x xs ih =>
    cases b with
    | nil => simp [charsLt] at hba
    | cons d ds =>
      simp only [charsLt] at hab hba
      rcases lt_trichotomy x d with h1 | h1 | h1
      · simp [h1] at hab
      · subst h1
        simp only [lt_irrefl, if_false, if_pos rfl, if_true] at hab hba
        rw [ih hab hba]
      · simp [h1] at hba

theorem strLt_irrefl (s : String) : strLt s s = false := charsLt_irrefl s.data

theorem strLt_trans {a b c : String} (hab : strLt a b = true) (hbc : strLt b c = true) :
    strLt a c = true := charsLt_trans hab hbc

theorem strLt_eq_of_not_lt {a b : String} (hab : strLt a b = false)
    (hba : strLt b a = false) : a = b := by
  cases a; cases b
  exact congrArg String.mk (charsLt_eq_of_not_lt hab hba)

instance : IsTotal DividendHistory descR := by
  constructor
  intro a b
  by_contra h
  push_neg at h
  obtain ⟨h1, h2⟩ := h
  unfold descR at h1 h2
  rw [Bool.not_eq_false] at h1 h2
  have := strLt_trans h1 h2
  rw [strLt_irrefl] at this
  exact Bool.false_ne_true this

instance : IsTrans DividendHistory descR := by
  constructor
  intro a b c hab hbc
  unfold descR at hab hbc ⊢
  by_contra h
  rw [Bool.not_eq_false] at h
  cases hba : strLt b.exDividendDate a.exDividendDate with
  | false =>
    rw [strLt_eq_of_not_lt hab hba] at h
    rw [h] at hbc
    exact Bool.noConfusion hbc
  | true =>
    have := strLt_trans hba h
    rw [this] at hbc
    exact Bool.noConfusion hbc

theorem sortDesc_perm (l : List DividendHistory) : (sortDesc l).Perm l :=
  List.perm_insertionSort descR l

theorem sortDesc_sorted (l : List DividendHistory) : List.Sorted descR (sortDesc l) :=
  List.sorted_insertionSort descR l

/-! ### Claims about the Merge Engine -/

/-- C1: for every call `merge(existing, harvested)`, if `existing` is empty
the result is `harvested` sorted descending by `exDividendDate`; otherwise,
with cutoff the first existing date, the result is exactly the harvested
records whose `exDividendDate` is strictly lexicographically greater than
the cutoff, concatenated with all of `existing`, sorted descending by
`exDividendDate` (stated as: the result is sorted for the descending order
and is a permutation of that filtered concatenation). -/
theorem mergeDividends_spec (existing harvested : List DividendHistory) :
    List.Sorted descR (mergeDividends existing harvested) ∧
    (mergeDividends existing harvested).Perm
      (match existing with
       | [] => harvested
       | first :: _ =>
         harvested.filter (fun d => strLt first.exDividendDate d.exDividendDate) ++ existing) := by
  cases existing with
  | nil => exact ⟨sortDesc_sorted _, sortDesc_perm _⟩
  | cons first rest => exact ⟨sortDesc_sorted _, sortDesc_perm _⟩

/-- C3 counterexample: an `existing` history that satisfies the strictly
descending invariant and a `harvested` list with two records sharing one
`exDividendDate` produce a merge result in which two records share an
`exDividendDate`, so the claim fails as stated. -/
theorem mergeDividends_dup_dates_counterexample :
    List.Pairwise (fun a b : DividendHistory => strLt b.exDividendDate a.exDividendDate = true)
      [{ exDividendDate := "2025-01-01", cashAmount := "$0.10",
         recordDate := "2025-01-01", payDate := "2025-01-02" }] ∧
    ¬ List.Pairwise (fun a b : DividendHistory => a.exDividendDate ≠ b.exDividendDate)
      (mergeDividends
        [{ exDividendDate := "2025-01-01", cashAmount := "$0.10",
           recordDate := "2025-01-01", payDate := "2025-01-02" }]
        [{ exDividendDate := "2025-02-01", cashAmount := "$0.20",
           recordDate := "2025-02-01", payDate := "2025-02-02" },
         { exDividendDate := "2025-02-01", cashAmount := "$0.30",
           recordDate := "2025-02-01", payDate := "2025-02-02" }]) := by
  decide

/-- C3 (amended): when `existing` is strictly descending by
`exDividendDate` (the TickerHistory invariant) and the harvested records
have pairwise distinct `exDividendDate`s, the merge result contains no two
records with the same `exDividendDate`. Without the distinctness assumption
on `harvested` the claim is false (see the counterexample): the cutoff
policy deduplicates only against `existing`, not within `harvested`. -/
theorem mergeDividends_nodup_dates (existing harvested : List DividendHistory)
    (hex : List.Pairwise (fun a b => strLt b.exDividendDate a.exDividendDate = true) existing)
    (hh : List.Pairwise (fun a b : DividendHistory => a.exDividendDate ≠ b.exDividendDate) harvested) :
    List.Pairwise (fun a b : DividendHistory => a.exDividendDate ≠ b.exDividendDate)
      (mergeDividends existing harvested) := by
  have hsym : ∀ {x y : DividendHistory},
      x.exDividendDate ≠ y.exDividendDate → y.exDividendDate ≠ x.exDividendDate :=
    fun h => h.symm
  cases existing with
  | nil =>
    exact (List.Perm.pairwise_iff hsym (sortDesc_perm harvested)).mpr hh
  | cons first rest =>
    refine (List.Perm.pairwise_iff hsym (sortDesc_perm _)).mpr ?_
    rw [List.pairwise_append]
    refine ⟨List.Pairwise.sublist (List.filter_sublist harvested) hh, ?_, ?_⟩
    · refine hex.imp ?_
      intro a b hba heq
      rw [heq] at hba
      rw [strLt_irrefl] at hba
      exact Bool.noConfusion hba
    · intro a ha b hb heq
      have hcut : strLt first.exDividendDate a.exDividendDate = true :=
        (List.mem_filter.mp ha).2
      rw [List.pairwise_cons] at hex
      rcases List.mem_cons.mp hb with hb | hb
      · rw [heq, hb] at hcut
        rw [strLt_irrefl] at hcut
        exact Bool.noConfusion hcut
      · have hblt : strLt b.exDividendDate first.exDividendDate = true := hex.1 b hb
        rw [heq] at hcut
        have := strLt_trans hcut hblt
        rw [strLt_irrefl] at this
        exact Bool.noConfusion this

/-- Witness for the amended C3 at a concrete input. -/
theorem mergeDividends_nodup_dates_witness :
    List.Pairwise (fun a b : DividendHistory => a.exDividendDate ≠ b.exDividendDate)
      (mergeDividends
        [{ exDividendDate := "2025-01-01", cashAmount := "$0.10",
           recordDate := "2025-01-01", payDate := "2025-01-02" }]
        [{ exDividendDate := "2025-02-01", cashAmount := "$0.20",
           recordDate := "2025-02-01", payDate := "2025-02-02" },
         { exDividendDate := "2025-03-01", cashAmount := "$0.30",
           recordDate := "2025-03-01", payDate := "2025-03-02" }]) :=
  mergeDividends_nodup_dates _ _ (by decide) (by decide)

/-- C8: merging an empty harvested list into an existing history that is
sorted descending (every TickerHistory satisfies this invariant) returns
`existing` unchanged in order and content: the cutoff filter admits nothing
from the empty list and the stable sort leaves the sorted history as it is. -/
theorem mergeDividends_empty_harvest (existing : List DividendHistory)
    (hex : List.Sorted descR existing) :
    mergeDividends existing [] = existing := by
  cases existing with
  | nil => rfl
  | cons first rest =>
    show sortDesc (List.filter _ [] ++ first :: rest) = first :: rest
    rw [List.filter_nil, List.nil_append]
    exact List.Sorted.insertionSort_eq hex

/-- Witness for C8 at a concrete two-record history. -/
theorem mergeDividends_empty_harvest_witness :
    mergeDividends
      [{ exDividendDate := "2025-02-01", cashAmount := "$0.20",
         recordDate := "2025-02-01", payDate := "2025-02-02" },
       { exDividendDate := "2025-01-01", cashAmount := "$0.10",
         recordDate := "2025-01-01", payDate := "2025-01-02" }] [] =
      [{ exDividendDate := "2025-02-01", cashAmount := "$0.20",
         recordDate := "2025-02-01", payDate := "2025-02-02" },
       { exDividendDate := "2025-01-01", cashAmount := "$0.10",
         recordDate := "2025-01-01", payDate := "2025-01-02" }] :=
  mergeDividends_empty_harvest _ (by decide)

/-! ### Claims about the Time-Bounded Cache -/

/-- C5: a cache read returns the stored history exactly when the current
time is strictly before the entry's expiry; otherwise it is a miss. In
particular a read immediately after a write with TTL 0 is a miss, and a
read immediately after a write with a one-hour TTL returns the data
unchanged. -/
theorem cacheGet_spec (cache : String → Option CacheEntry) (key : String) (now : Nat)
    (d : List DividendHistory) :
    (∀ e, cache key = some e →
      cacheGet cache key now = (if now < e.expiresAtMs then some e.data else none)) ∧
    (cache key = none → cacheGet cache key now = none) ∧
    cacheGet (cachePut cache key d now 0) key now = none ∧
    cacheGet (cachePut cache key d now defaultTtlMs) key now = some d := by
  refine ⟨?_, ?_, ?_, ?_⟩
  · intro e he
    simp [cacheGet, he]
  · intro he
    simp [cacheGet, he]
  · simp [cacheGet, cachePut]
  · simp [cacheGet, cachePut, defaultTtlMs]

/-- Witness for C5 at a concrete cache state. -/
theorem cacheGet_spec_witness :
    cacheGet (fun k => if k = "TSLY" then some { expiresAtMs := 100, data := [] } else none)
      "TSLY" 50 = (if (50 : Nat) < 100 then some ([] : List DividendHistory) else none) :=
  (cacheGet_spec (fun k => if k = "TSLY" then some { expiresAtMs := 100, data := [] } else none)
    "TSLY" 50 []).1 { expiresAtMs := 100, data := [] } (by simp)

/-! ### Claims about the History Harvester -/

/-- C7: harvesting fails with the not-found error exactly when the fetch
ended in HTTP 404; it fails with the extraction error exactly when a
document was fetched and both extraction strategies produced zero records;
and it fails with an upstream error exactly when the fetch ended in a
non-404 HTTP error or a transport failure. -/
theorem harvestDividends_classification
    (extractPrimary extractFallback : String → List DividendHistory)
    (ticker : String) (fetch : FetchResult) :
    ((∃ m, harvestDividends extractPrimary extractFallback ticker fetch = .error (.notFound m)) ↔
      fetch = .httpError 404) ∧
    ((∃ m, harvestDividends extractPrimary extractFallback ticker fetch = .error (.extractionFailed m)) ↔
      ∃ doc, fetch = .success doc ∧ extractPrimary doc = [] ∧ extractFallback doc = []) ∧
    ((∃ m, harvestDividends extractPrimary extractFallback ticker fetch = .error (.upstream m)) ↔
      ((∃ s, fetch = .httpError s ∧ s ≠ 404) ∨ ∃ m, fetch = .networkError m)) := by
  refine ⟨?_, ?_, ?_⟩
  · constructor
    · rintro ⟨m, hm⟩
      cases fetch with
      | success doc =>
        exfalso
        simp only [harvestDividends] at hm
        by_cases h1 : (extractPrimary doc).isEmpty
        · by_cases h2 : (extractFallback doc).isEmpty <;> simp [h1, h2] at hm
        · simp [h1] at hm
      | httpError status =>
        by_cases h : status = 404
        · rw [h]
        · exfalso; simp [harvestDividends, h] at hm
      | networkError msg => exfalso; simp [harvestDividends] at hm
    · rintro rfl
      exact ⟨"ETF ticker " ++ "\"" ++ ticker ++ "\"" ++ " not found on stockanalysis.com",
        by simp [harvestDividends]⟩
  · constructor
    · rintro ⟨m, hm⟩
      cases fetch with
      | success doc =>
        simp only [harvestDividends] at hm
        by_cases h1 : (extractPrimary doc).isEmpty
        · by_cases h2 : (extractFallback doc).isEmpty
          · exact ⟨doc, rfl, List.isEmpty_iff.mp h1, List.isEmpty_iff.mp h2⟩
          · exfalso; simp [h1, h2] at hm
        · exfalso; simp [h1] at hm
      | httpError status =>
        exfalso
        by_cases h : status = 404 <;> simp [harvestDividends, h] at hm
      | networkError msg => exfalso; simp [harvestDividends] at hm
    · rintro ⟨doc, rfl, h1, h2⟩
      exact ⟨"Could not find dividend history table on the page",
        by simp [harvestDividends, h1, h2]⟩
  · constructor
    · rintro ⟨m, hm⟩
      cases fetch with
      | success doc =>
        exfalso
        simp only [harvestDividends] at hm
        by_cases h1 : (extractPrimary doc).isEmpty
        · by_cases h2 : (extractFallback doc).isEmpty <;> simp [h1, h2] at hm
        · simp [h1] at hm
      | httpError status =>
        by_cases h : status = 404
        · exfalso; simp [harvestDividends, h] at hm
        · exact Or.inl ⟨status, rfl, h⟩
      | networkError msg => exact Or.inr ⟨msg, rfl⟩
    · rintro (⟨s, rfl, hs⟩ | ⟨m, rfl⟩)
      · exact ⟨"Request failed with status code " ++ natToString s,
          by simp [harvestDividends, hs]⟩
      · exact ⟨if m = "" then "Failed to fetch dividend history from stockanalysis.com" else m,
          by simp [harvestDividends]⟩

/-! ### Claims about the Batch Orchestrator -/

theorem processTickers_map_ticker (ep ef : String → List DividendHistory)
    (fetchFor : String → FetchResult) (dir : Option String) (now : Nat) :
    ∀ (tickers : List String) (st : ServiceState),
      (processTickers ep ef fetchFor dir now st tickers).1.map (fun o => o.ticker) = tickers := by
  intro tickers
  induction tickers with
  | nil => intro st; rfl
  | cons t ts ih =>
    intro st
    cases h : getDividendHistory ep ef (fetchFor t) t dir now st with
    | ok r => simp [processTickers, h, ih]
    | error e => simp [processTickers, h, ih]

theorem processTickers_outcome_shape (ep ef : String → List DividendHistory)
    (fetchFor : String → FetchResult) (dir : Option String) (now : Nat) :
    ∀ (tickers : List String) (st : ServiceState),
      ∀ o ∈ (processTickers ep ef fetchFor dir now st tickers).1,
        (o.success = true ∧ o.error = none) ∨
        (o.success = false ∧ ∃ m, o.error = some m ∧ m ≠ "") := by
  intro tickers
  induction tickers with
  | nil => intro st o ho; exact absurd ho (List.not_mem_nil o)
  | cons t ts ih =>
    intro st o ho
    cases h : getDividendHistory ep ef (fetchFor t) t dir now st with
    | ok r =>
      rw [processTickers, h] at ho
      rcases List.mem_cons.mp ho with rfl | ho
      · exact Or.inl ⟨rfl, rfl⟩
      · exact ih r.2 o ho
    | error e =>
      rw [processTickers, h] at ho
      rcases List.mem_cons.mp ho with rfl | ho
      · refine Or.inr ⟨rfl, if errMessage e = "" then "Unknown error" else errMessage e, rfl, ?_⟩
        by_cases hm : errMessage e = "" <;> simp [hm]
      · exact ih st o ho

/-- C6: for every manifest that parses to a ticker list, the Batch
Orchestrator returns (it never propagates a per-ticker error) one outcome
per manifest ticker in manifest order; every outcome is either a success
`(ticker, true)` with no error or a failure `(ticker, false)` carrying a
non-empty error message, and a failed ticker never stops the remaining
tickers from being processed (the outcome list always covers the whole
manifest). -/
theorem processTickersFromCsv_outcomes (ep ef : String → List DividendHistory)
    (fetchFor : String → FetchResult) (content outputDir : String) (now : Nat)
    (st : ServiceState) (tickers : List String)
    (hm : readTickersFromCsv content = .ok tickers) :
    processTickersFromCsv ep ef fetchFor content outputDir now st =
      .ok (processTickers ep ef fetchFor (some outputDir) now st tickers) ∧
    (processTickers ep ef fetchFor (some outputDir) now st tickers).1.map (fun o => o.ticker) =
      tickers ∧
    (∀ o ∈ (processTickers ep ef fetchFor (some outputDir) now st tickers).1,
      (o.success = true ∧ o.error = none) ∨
      (o.success = false ∧ ∃ m, o.error = some m ∧ m ≠ "")) ∧
    ∀ (t : String) (rest : List String) (st' : ServiceState),
      processTickers ep ef fetchFor (some outputDir) now st' (t :: rest) =
        (match getDividendHistory ep ef (fetchFor t) t (some outputDir) now st' with
         | .ok (_, st1) =>
           ({ ticker := t, success := true, error := none } ::
              (processTickers ep ef fetchFor (some outputDir) now st1 rest).1,
            (processTickers ep ef fetchFor (some outputDir) now st1 rest).2)
         | .error e =>
           ({ ticker := t, success := false,
              error := some (if errMessage e = "" then "Unknown error" else errMessage e) } ::
              (processTickers ep ef fetchFor (some outputDir) now st' rest).1,
            (processTickers ep ef fetchFor (some outputDir) now st' rest).2)) := by
  refine ⟨?_, processTickers_map_ticker ep ef fetchFor (some outputDir) now tickers st,
    processTickers_outcome_shape ep ef fetchFor (some outputDir) now tickers st, ?_⟩
  · simp [processTickersFromCsv, hm]
  · intro t rest st'
    cases h : getDividendHistory ep ef (fetchFor t) t (some outputDir) now st' with
    | ok r => simp [processTickers, h]
    | error e => simp [processTickers, h]

/-- Witness for C6: a three-ticker manifest whose second ticker's fetch
fails yields outcomes in manifest order, with the second marked as a
failure with a non-empty error and the other two marked as successes. -/
theorem processTickersFromCsv_outcomes_witness :
    (processTickers
      (fun _ => [{ exDividendDate := "2025-01-01", cashAmount := "$1",
                   recordDate := "2025-01-01", payDate := "2025-01-02" }])
      (fun _ => [])
      (fun t => if t = "BBB" then FetchResult.networkError "boom" else FetchResult.success "doc")
      (some "out") 0 { cache := fun _ => none, fs := fun _ => none }
      ["AAA", "BBB", "CCC"]).1.map (fun o => o.ticker) = ["AAA", "BBB", "CCC"] ∧
    (processTickers
      (fun _ => [{ exDividendDate := "2025-01-01", cashAmount := "$1",
                   recordDate := "2025-01-01", payDate := "2025-01-02" }])
      (fun _ => [])
      (fun t => if t = "BBB" then FetchResult.networkError "boom" else FetchResult.success "doc")
      (some "out") 0 { cache := fun _ => none, fs := fun _ => none }
      ["AAA", "BBB", "CCC"]).1 =
      [{ ticker := "AAA", success := true, error := none },
       { ticker := "BBB", success := false, error := some "boom" },
       { ticker := "CCC", success := true, error := none }] :=
  ⟨(processTickersFromCsv_outcomes
      (fun _ => [{ exDividendDate := "2025-01-01", cashAmount := "$1",
                   recordDate := "2025-01-01", payDate := "2025-01-02" }])
      (fun _ => [])
      (fun t => if t = "BBB" then FetchResult.networkError "boom" else FetchResult.success "doc")
      ("Symbol,Name" ++ "\n" ++ "AAA,x" ++ "\n" ++ "BBB,y" ++ "\n" ++ "CCC,z") "out" 0
      { cache := fun _ => none, fs := fun _ => none }
      ["AAA", "BBB", "CCC"] rfl).2.1,
   by decide⟩

/-! ### Claim about the cache-hit path of the single-ticker pipeline -/

/-- C9: when a request for a non-empty ticker hits a fresh cache entry and
an output directory is supplied, the service returns the cached history and
the only state change is that the ticker's file in that directory now holds
the encoding of the cached history (regardless of what the file held
before); the cache is untouched, every other file is untouched, and neither
the merge engine nor the old file contents influence the result. -/
theorem getDividendHistory_cacheHit_frame (ep ef : String → List DividendHistory)
    (fetch : FetchResult) (ticker dir : String) (now : Nat) (st : ServiceState)
    (d : List DividendHistory)
    (hticker : ticker ≠ "")
    (hcache : cacheGet st.cache (jsToUpper ticker) now = some d) :
    getDividendHistory ep ef fetch ticker (some dir) now st =
      .ok (d,
        { cache := st.cache,
          fs := fun p =>
            if p = filePathFor (some dir) (jsToUpper ticker) then some (saveToCsvContent d)
            else st.fs p }) := by
  simp [getDividendHistory, hticker, hcache, saveToCsvFs]

/-- Witness for C9 at a concrete fresh cache entry. -/
theorem getDividendHistory_cacheHit_frame_witness :
    getDividendHistory (fun _ => []) (fun _ => []) (FetchResult.success "doc") "tsly"
      (some "out") 50
      { cache := fun k =>
          if k = "TSLY" then
            some { expiresAtMs := 100,
                   data := [{ exDividendDate := "2025-01-01", cashAmount := "$1",
                              recordDate := "2025-01-01", payDate := "2025-01-02" }] }
          else none,
        fs := fun _ => none } =
      .ok ([{ exDividendDate := "2025-01-01", cashAmount := "$1",
              recordDate := "2025-01-01", payDate := "2025-01-02" }],
        { cache := fun k =>
            if k = "TSLY" then
              some { expiresAtMs := 100,
                     data := [{ exDividendDate := "2025-01-01", cashAmount := "$1",
                                recordDate := "2025-01-01", payDate := "2025-01-02" }] }
            else none,
          fs := fun p =>
            if p = filePathFor (some "out") (jsToUpper "tsly") then
              some (saveToCsvContent
                [{ exDividendDate := "2025-01-01", cashAmount := "$1",
                   recordDate := "2025-01-01", payDate := "2025-01-02" }])
            else none }) :=
  getDividendHistory_cacheHit_frame (fun _ => []) (fun _ => []) (FetchResult.success "doc")
    "tsly" "out" 50 _ _ (by decide) (by decide)

/-! ### Facts about the embedded trim -/

theorem dropWhile_isWs_eq_self {l : List Char}
    (h : ∀ c, l.head? = some c → isWs c = false) : l.dropWhile isWs = l := by
  cases l with
  | nil => rfl
  | cons c cs =>
    rw [List.dropWhile_cons, if_neg]
    rw [h c rfl]
    simp

theorem trimChars_eq_self {l : List Char}
    (h1 : ∀ c, l.head? = some c → isWs c = false)
    (h2 : ∀ c, l.getLast? = some c → isWs c = false) : trimChars l = l := by
  unfold trimChars
  rw [dropWhile_isWs_eq_self h1]
  rw [dropWhile_isWs_eq_self (by
    intro c hc
    rw [List.head?_reverse] at hc
    exact h2 c hc)]
  exact List.reverse_reverse l

theorem dropWhile_isWs_head {l : List Char} (h : l.dropWhile isWs = l) :
    ∀ c, l.head? = some c → isWs c = false := by
  intro c hc
  cases l with
  | nil => exact Option.noConfusion hc
  | cons x xs =>
    have hxc : x = c := by simpa using hc
    subst hxc
    by_contra hw
    rw [Bool.not_eq_false] at hw
    rw [List.dropWhile_cons, if_pos hw] at h
    have := congrArg List.length h
    have hle : (xs.dropWhile isWs).length ≤ xs.length := (List.dropWhile_sublist isWs).length_le
    simp at this
    omega

theorem trimChars_parts {l : List Char} (h : trimChars l = l) :
    l.dropWhile isWs = l ∧ l.reverse.dropWhile isWs = l.reverse := by
  have hd : l.dropWhile isWs = l := by
    have h1 : (l.dropWhile isWs).length ≤ l.length := (List.dropWhile_sublist isWs).length_le
    have h2 : (trimChars l).length ≤ (l.dropWhile isWs).length := by
      unfold trimChars
      rw [List.length_reverse]
      calc ((l.dropWhile isWs).reverse.dropWhile isWs).length
          ≤ (l.dropWhile isWs).reverse.length := (List.dropWhile_sublist isWs).length_le
        _ = (l.dropWhile isWs).length := List.length_reverse _
    rw [h] at h2
    exact (List.dropWhile_sublist isWs).eq_of_length (by omega)
  refine ⟨hd, ?_⟩
  unfold trimChars at h
  rw [hd] at h
  have := congrArg List.reverse h
  rw [List.reverse_reverse] at this
  exact this

theorem mem_dropWhile_isWs {c : Char} {l : List Char} (hc : c ∈ l) (hw : isWs c = false) :
    c ∈ l.dropWhile isWs := by
  induction l with
  | nil => exact absurd hc (List.not_mem_nil c)
  | cons x xs ih =>
    rw [List.dropWhile_cons]
    by_cases hx : isWs x = true
    · rw [if_pos hx]
      rcases List.mem_cons.mp hc with rfl | hc'
      · rw [hw] at hx
        exact Bool.noConfusion hx
      · exact ih hc'
    · rw [if_neg hx]
      exact hc

theorem trimChars_ne_nil_of_mem {c : Char} {l : List Char} (hc : c ∈ l)
    (hw : isWs c = false) : trimChars l ≠ [] := by
  unfold trimChars
  intro h
  have h1 : c ∈ l.dropWhile isWs := mem_dropWhile_isWs hc hw
  have h2 : c ∈ (l.dropWhile isWs).reverse := List.mem_reverse.mpr h1
  have h3 : c ∈ (l.dropWhile isWs).reverse.dropWhile isWs := mem_dropWhile_isWs h2 hw
  have h4 : c ∈ ((l.dropWhile isWs).reverse.dropWhile isWs).reverse := List.mem_reverse.mpr h3
  rw [h] at h4
  exact List.not_mem_nil c h4

/-! ### Facts about the embedded split and join -/

theorem splitOnChar_ne_nil (sep : Char) (l : List Char) : splitOnChar sep l ≠ [] := by
  cases l with
  | nil => simp [splitOnChar]
  | cons c cs =>
    rw [splitOnChar]
    by_cases h : c = sep
    · simp [h]
    · rw [if_neg h]
      cases splitOnChar sep cs <;> simp

theorem splitOnChar_append_sep {sep : Char} {a : List Char} (ha : sep ∉ a) (b : List Char) :
    splitOnChar sep (a ++ sep :: b) = a :: splitOnChar sep b := by
  induction a with
  | nil => simp [splitOnChar]
  | cons x xs ih =>
    have hx : x ≠ sep := fun h => ha (h ▸ List.mem_cons_self x xs)
    have hxs : sep ∉ xs := fun h => ha (List.mem_cons_of_mem x h)
    rw [List.cons_append, splitOnChar, if_neg hx, ih hxs]

theorem splitOnChar_no_sep {sep : Char} {a : List Char} (ha : sep ∉ a) :
    splitOnChar sep a = [a] := by
  induction a with
  | nil => rfl
  | cons x xs ih =>
    have hx : x ≠ sep := fun h => ha (h ▸ List.mem_cons_self x xs)
    have hxs : sep ∉ xs := fun h => ha (List.mem_cons_of_mem x h)
    rw [splitOnChar, if_neg hx, ih hxs]

theorem splitOnChar_joinRows {rows : List (List Char)}
    (h : ∀ r ∈ rows, '\n' ∉ r) (hne : rows ≠ []) :
    splitOnChar '\n' (joinRows rows) = rows := by
  induction rows with
  | nil => exact absurd rfl hne
  | cons r rs ih =>
    cases rs with
    | nil => exact splitOnChar_no_sep (h r (List.mem_cons_self r []))
    | cons r2 rs2 =>
      rw [joinRows, splitOnChar_append_sep (h r (List.mem_cons_self r _))]
      rw [ih (fun x hx => h x (List.mem_cons_of_mem r hx)) (List.cons_ne_nil r2 rs2)]
      exact fun hx => List.cons_ne_nil r2 rs2 hx

/-! ### Facts about the codec's tokenizer on escaped fields -/

theorem strMk_data (s : String) : String.mk s.data = s := rfl

theorem parseChars_nil (current : List Char) (inQuotes : Bool) :
    parseChars [] current inQuotes =
      if current.isEmpty then [] else [String.mk (trimChars current)] := rfl

theorem parseChars_cons (c : Char) (cs current : List Char) (inQuotes : Bool) :
    parseChars (c :: cs) current inQuotes =
      if c = '"' then parseChars cs current (!inQuotes)
      else if c = ',' ∧ inQuotes = false then
        String.mk (trimChars current) :: parseChars cs [] false
      else parseChars cs (current ++ [c]) inQuotes := rfl

theorem doubleQuotes_eq_self {l : List Char} (h : '"' ∉ l) : doubleQuotes l = l := by
  induction l with
  | nil => rfl
  | cons c cs ih =>
    have hc : c ≠ '"' := fun hq => h (hq ▸ List.mem_cons_self c cs)
    rw [doubleQuotes, if_neg hc, ih (fun hq => h (List.mem_cons_of_mem c hq))]

theorem mem_doubleQuotes {c : Char} {l : List Char} (h : c ∈ doubleQuotes l) :
    c ∈ l ∨ c = '"' := by
  induction l with
  | nil => exact absurd h (List.not_mem_nil c)
  | cons x xs ih =>
    rw [doubleQuotes] at h
    by_cases hx : x = '"'
    · rw [if_pos hx] at h
      rcases List.mem_cons.mp h with rfl | h
      · exact Or.inr rfl
      · rcases List.mem_cons.mp h with rfl | h
        · exact Or.inr rfl
        · rcases ih h with h | h
          · exact Or.inl (List.mem_cons_of_mem x h)
          · exact Or.inr h
    · rw [if_neg hx] at h
      rcases List.mem_cons.mp h with rfl | h
      · exact Or.inl (List.mem_cons_self c xs)
      · rcases ih h with h | h
        · exact Or.inl (List.mem_cons_of_mem x h)
        · exact Or.inr h

theorem parseChars_plain_sep {cs : List Char} (hq : '"' ∉ cs) (hc : ',' ∉ cs) :
    ∀ (acc : List Char) (rest : List Char),
      parseChars (cs ++ ',' :: rest) acc false =
        String.mk (trimChars (acc ++ cs)) :: parseChars rest [] false := by
  induction cs with
  | nil =>
    intro acc rest
    rw [List.nil_append, parseChars_cons]
    rw [if_neg (by decide : ¬ (',' : Char) = '"'), if_pos (by exact ⟨rfl, rfl⟩)]
    rw [List.append_nil]
  | cons x xs ih =>
    intro acc rest
    have hx1 : x ≠ '"' := fun h => hq (h ▸ List.mem_cons_self x xs)
    have hx2 : ¬ (x = ',' ∧ (false : Bool) = false) :=
      fun h => hc (h.1 ▸ List.mem_cons_self x xs)
    rw [List.cons_append, parseChars_cons, if_neg hx1, if_neg hx2]
    rw [ih (fun h => hq (List.mem_cons_of_mem x h)) (fun h => hc (List.mem_cons_of_mem x h))]
    rw [List.append_assoc]
    rfl

theorem parseChars_in_quotes {cs : List Char} (hq : '"' ∉ cs) :
    ∀ (acc : List Char) (rest : List Char),
      parseChars (cs ++ rest) acc true = parseChars rest (acc ++ cs) true := by
  induction cs with
  | nil => intro acc rest; rw [List.nil_append, List.append_nil]
  | cons x xs ih =>
    intro acc rest
    have hx1 : x ≠ '"' := fun h => hq (h ▸ List.mem_cons_self x xs)
    have hx2 : ¬ (x = ',' ∧ (true : Bool) = false) := fun h => Bool.noConfusion h.2
    rw [List.cons_append, parseChars_cons, if_neg hx1, if_neg hx2]
    rw [ih (fun h => hq (List.mem_cons_of_mem x h))]
    rw [List.append_assoc]
    rfl

theorem parseChars_plain_last {cs : List Char} (hq : '"' ∉ cs) (hc : ',' ∉ cs) :
    ∀ (acc : List Char),
      parseChars cs acc false =
        if (acc ++ cs).isEmpty then [] else [String.mk (trimChars (acc ++ cs))] := by
  induction cs with
  | nil => intro acc; rw [parseChars_nil, List.append_nil]
  | cons x xs ih =>
    intro acc
    have hx1 : x ≠ '"' := fun h => hq (h ▸ List.mem_cons_self x xs)
    have hx2 : ¬ (x = ',' ∧ (false : Bool) = false) :=
      fun h => hc (h.1 ▸ List.mem_cons_self x xs)
    rw [parseChars_cons, if_neg hx1, if_neg hx2]
    rw [ih (fun h => hq (List.mem_cons_of_mem x h)) (fun h => hc (List.mem_cons_of_mem x h))]
    rw [List.append_assoc]
    rfl

theorem parseChars_field_sep {f : String} (hf : cleanField f) (rest : List Char) :
    parseChars (escapeCsv f ++ ',' :: rest) [] false = f :: parseChars rest [] false := by
  obtain ⟨hq, hn, ht⟩ := hf
  unfold escapeCsv
  by_cases hcond : ',' ∈ f.data ∨ '"' ∈ f.data ∨ '\n' ∈ f.data
  · rw [if_pos hcond, doubleQuotes_eq_self hq]
    have hsh : (('"' :: (f.data ++ ['"'])) ++ ',' :: rest) =
        '"' :: (f.data ++ ('"' :: ',' :: rest)) := by simp
    rw [hsh, parseChars_cons, if_pos rfl, Bool.not_false]
    rw [parseChars_in_quotes hq]
    rw [parseChars_cons, if_pos rfl, Bool.not_true]
    rw [parseChars_cons]
    rw [if_neg (by decide : ¬ (',' : Char) = '"'), if_pos (by exact ⟨rfl, rfl⟩)]
    rw [List.nil_append, ht, strMk_data]
  · rw [if_neg hcond]
    push_neg at hcond
    rw [parseChars_plain_sep hcond.2.1 hcond.1]
    rw [List.nil_append, ht, strMk_data]

theorem parseChars_field_last {f : String} (hf : cleanField f) :
    parseChars (escapeCsv f) [] false = if f.data.isEmpty then [] else [f] := by
  obtain ⟨hq, hn, ht⟩ := hf
  unfold escapeCsv
  by_cases hcond : ',' ∈ f.data ∨ '"' ∈ f.data ∨ '\n' ∈ f.data
  · have hne : ¬ f.data.isEmpty = true := by
      rcases hcond with h | h | h
      · intro he; rw [List.isEmpty_iff.mp he] at h; exact List.not_mem_nil _ h
      · exact absurd h hq
      · exact absurd h hn
    have hsh : ('"' :: (f.data ++ ['"'])) = '"' :: (f.data ++ ('"' :: ([] : List Char))) := by simp
    rw [if_pos hcond, doubleQuotes_eq_self hq, hsh, parseChars_cons, if_pos rfl, Bool.not_false]
    rw [parseChars_in_quotes hq]
    rw [parseChars_cons, if_pos rfl, Bool.not_true]
    rw [parseChars_nil]
    rw [List.nil_append, if_neg hne, ht, strMk_data, if_neg hne]
  · rw [if_neg hcond]
    push_neg at hcond
    rw [parseChars_plain_last hcond.2.1 hcond.1 []]
    rw [List.nil_append, ht, strMk_data]

theorem parseChars_recordLine {d : DividendHistory} (hd : cleanRecord d) :
    parseChars (recordLine d) [] false =
      [d.exDividendDate, d.cashAmount, d.recordDate] ++
        (if d.payDate.data.isEmpty then [] else [d.payDate]) := by
  obtain ⟨h0, h1, h2, h3⟩ := hd
  unfold recordLine
  rw [parseChars_field_sep h0, parseChars_field_sep h1, parseChars_field_sep h2,
    parseChars_field_last h3]
  by_cases hp : d.payDate.data.isEmpty <;> simp [hp]

theorem escape_no_newline {f : String} (hf : cleanField f) : '\n' ∉ escapeCsv f := by
  obtain ⟨hq, hn, ht⟩ := hf
  unfold escapeCsv
  by_cases hcond : ',' ∈ f.data ∨ '"' ∈ f.data ∨ '\n' ∈ f.data
  · rw [if_pos hcond]
    intro hmem
    rcases List.mem_cons.mp hmem with h | h
    · exact absurd h (by decide)
    · rcases List.mem_append.mp h with h | h
      · rcases mem_doubleQuotes h with h | h
        · exact hn h
        · exact absurd h (by decide)
      · rcases List.mem_cons.mp h with h | h
        · exact absurd h (by decide)
        · exact List.not_mem_nil _ h
  · rw [if_neg hcond]
    exact hn

theorem recordLine_no_newline {d : DividendHistory} (hd : cleanRecord d) :
    '\n' ∉ recordLine d := by
  obtain ⟨h0, h1, h2, h3⟩ := hd
  unfold recordLine
  intro hmem
  rcases List.mem_append.mp hmem with h | h
  · exact escape_no_newline h0 h
  · rcases List.mem_cons.mp h with h | h
    · exact absurd h (by decide)
    · rcases List.mem_append.mp h with h | h
      · exact escape_no_newline h1 h
      · rcases List.mem_cons.mp h with h | h
        · exact absurd h (by decide)
        · rcases List.mem_append.mp h with h | h
          · exact escape_no_newline h2 h
          · rcases List.mem_cons.mp h with h | h
            · exact absurd h (by decide)
            · exact escape_no_newline h3 h

theorem escape_head_not_ws {f : String} (hf : cleanField f) :
    ∀ c, (escapeCsv f).head? = some c → isWs c = false := by
  obtain ⟨hq, hn, ht⟩ := hf
  intro c hc
  unfold escapeCsv at hc
  by_cases hcond : ',' ∈ f.data ∨ '"' ∈ f.data ∨ '\n' ∈ f.data
  · rw [if_pos hcond] at hc
    have hcc : '"' = c := by simpa using hc
    subst hcc
    decide
  · rw [if_neg hcond] at hc
    exact dropWhile_isWs_head (trimChars_parts ht).1 c hc

theorem getLast?_append_cons (a : List Char) (c : Char) (b : List Char) :
    (a ++ c :: b).getLast? = (c :: b).getLast? := by
  rw [List.getLast?_append]
  cases hx : (c :: b).getLast? with
  | some y => rfl
  | none =>
    exfalso
    induction b generalizing c with
    | nil => exact Option.noConfusion hx
    | cons y ys ih => exact ih y (by simp only [List.getLast?_cons_cons] at hx; exact hx)

theorem getLast?_cons_ne_nil {c : Char} {l : List Char} (h : l ≠ []) :
    (c :: l).getLast? = l.getLast? := by
  cases l with
  | nil => exact absurd rfl h
  | cons y ys => rfl

theorem escape_getLast_not_ws {f : String} (hf : cleanField f) :
    ∀ c, (escapeCsv f).getLast? = some c → isWs c = false := by
  obtain ⟨hq, hn, ht⟩ := hf
  intro c hc
  unfold escapeCsv at hc
  by_cases hcond : ',' ∈ f.data ∨ '"' ∈ f.data ∨ '\n' ∈ f.data
  · rw [if_pos hcond] at hc
    rw [show ('"' :: (doubleQuotes f.data ++ ['"'])) =
        (('"' :: doubleQuotes f.data) ++ ['"']) from rfl] at hc
    rw [List.getLast?_concat] at hc
    have : c = '"' := by simpa using hc.symm
    subst this
    decide
  · rw [if_neg hcond] at hc
    have hr := (trimChars_parts ht).2
    rw [← List.head?_reverse] at hc
    exact dropWhile_isWs_head hr c hc

theorem comma_mem_recordLine (d : DividendHistory) : ',' ∈ recordLine d := by
  unfold recordLine
  exact List.mem_append_right _ (List.mem_cons_self ',' _)

theorem trim_recordLine {d : DividendHistory} (hd : cleanRecord d) :
    trimChars (recordLine d) = recordLine d := by
  obtain ⟨h0, h1, h2, h3⟩ := hd
  apply trimChars_eq_self
  · intro c hc
    unfold recordLine at hc
    rw [List.head?_append] at hc
    cases hx : (escapeCsv d.exDividendDate).head? with
    | some y =>
      rw [hx] at hc
      have : y = c := by simpa using hc
      subst this
      exact escape_head_not_ws h0 y hx
    | none =>
      rw [hx] at hc
      have hcc : ',' = c := by simpa using hc
      subst hcc
      decide
  · intro c hc
    unfold recordLine at hc
    rw [getLast?_append_cons] at hc
    rw [getLast?_cons_ne_nil (by simp)] at hc
    rw [getLast?_append_cons] at hc
    rw [getLast?_cons_ne_nil (by simp)] at hc
    rw [getLast?_append_cons] at hc
    cases hp : escapeCsv d.payDate with
    | nil =>
      rw [hp] at hc
      have hcc : ',' = c := by simpa using hc
      subst hcc
      decide
    | cons y ys =>
      rw [hp] at hc
      rw [getLast?_cons_ne_nil (by simp)] at hc
      rw [← hp] at hc
      exact escape_getLast_not_ws h3 c hc

theorem lineToRecord_recordLine {d : DividendHistory} (hd : cleanRecord d) :
    lineToRecord (recordLine d) =
      if d.payDate.data.isEmpty then none else some d := by
  unfold lineToRecord
  rw [trim_recordLine hd, parseChars_recordLine hd]
  by_cases hp : d.payDate.data.isEmpty
  · simp [hp]
  · simp [hp]

theorem filterMap_lineToRecord (ds : List DividendHistory) (h : ∀ d ∈ ds, cleanRecord d) :
    ds.filterMap (fun d => lineToRecord (recordLine d)) =
      ds.filter (fun d => !d.payDate.data.isEmpty) := by
  induction ds with
  | nil => rfl
  | cons d ds ih =>
    rw [List.filterMap_cons, lineToRecord_recordLine (h d (List.mem_cons_self d ds))]
    rw [List.filter_cons]
    have ihh := ih (fun x hx => h x (List.mem_cons_of_mem d hx))
    by_cases hp : d.payDate.data.isEmpty
    · simp [hp, ihh]
    · simp [hp, ihh]

theorem readCsv_saveToCsv (ds : List DividendHistory) (h : ∀ d ∈ ds, cleanRecord d) :
    readCsvContent (saveToCsvContent ds) =
      ds.filter (fun d => !d.payDate.data.isEmpty) := by
  cases ds with
  | nil => decide
  | cons d0 ds0 =>
    have hrows : ∀ r ∈ (d0 :: ds0).map recordLine, '\n' ∉ r := by
      intro r hr
      obtain ⟨d, hd, rfl⟩ := List.mem_map.mp hr
      exact recordLine_no_newline (h d hd)
    have hsplit : splitOnChar '\n' (saveToCsvContent (d0 :: ds0)) =
        headerLine :: (d0 :: ds0).map recordLine := by
      unfold saveToCsvContent
      rw [splitOnChar_append_sep (by decide)]
      rw [splitOnChar_joinRows hrows (by simp)]
    have hfilter : (headerLine :: (d0 :: ds0).map recordLine).filter
        (fun l => !(trimChars l).isEmpty) = headerLine :: (d0 :: ds0).map recordLine := by
      apply List.filter_eq_self.mpr
      intro r hr
      rcases List.mem_cons.mp hr with rfl | hr
      · decide
      · obtain ⟨d, hd, rfl⟩ := List.mem_map.mp hr
        have := trimChars_ne_nil_of_mem (comma_mem_recordLine d) (by decide)
        simpa [List.isEmpty_iff] using this
    unfold readCsvContent
    rw [hsplit, hfilter]
    rw [if_neg (by simp)]
    rw [List.drop_one, List.tail_cons]
    rw [List.filterMap_map]
    exact filterMap_lineToRecord (d0 :: ds0) h

theorem strData_eq_nil {s : String} (h : s.data = []) : s = "" := by
  cases s with
  | mk data => rw [show data = [] from h]

/-! ### Claims about the Delimited-Text Codec -/

/-- C2 counterexample: a record whose `cashAmount` contains a double quote
is not reproduced by decoding its encoding — the encoder doubles the inner
quote, but the tokenizer only toggles quote mode and drops every quote
character, so the decoded field comes back without the quote. -/
theorem csv_roundtrip_counterexample :
    readCsvContent (saveToCsvContent
      [{ exDividendDate := "2025-10-01", cashAmount := "$0.50\"x",
         recordDate := "2025-10-01", payDate := "2025-10-02" }]) ≠
      [{ exDividendDate := "2025-10-01", cashAmount := "$0.50\"x",
         recordDate := "2025-10-01", payDate := "2025-10-02" }] := by decide

/-- C2 (amended): encoding then decoding reproduces the records in order
for histories whose fields contain no double quote and no newline, carry no
leading or trailing whitespace, and whose `payDate` is non-empty; fields
containing commas are quoted by the encoder and recovered exactly. For a
field with a double quote or a newline, or an empty `payDate`, the round
trip fails (see the counterexample and C10). -/
theorem csv_roundtrip_clean (ds : List DividendHistory)
    (h : ∀ d ∈ ds, cleanRecord d ∧ d.payDate ≠ "") :
    readCsvContent (saveToCsvContent ds) = ds := by
  rw [readCsv_saveToCsv ds (fun d hd => (h d hd).1)]
  apply List.filter_eq_self.mpr
  intro d hd
  have hp := (h d hd).2
  have hne : d.payDate.data ≠ [] := fun hh => hp (strData_eq_nil hh)
  simp [List.isEmpty_iff, hne]

/-- Witness for the amended C2: a history with a comma-bearing field and an
empty `recordDate` round-trips exactly. -/
theorem csv_roundtrip_clean_witness :
    readCsvContent (saveToCsvContent
      [{ exDividendDate := "2025-10-01", cashAmount := "$0.50, special",
         recordDate := "", payDate := "2025-10-02" },
       { exDividendDate := "2025-09-01", cashAmount := "$0.40",
         recordDate := "2025-09-01", payDate := "2025-09-02" }]) =
      [{ exDividendDate := "2025-10-01", cashAmount := "$0.50, special",
         recordDate := "", payDate := "2025-10-02" },
       { exDividendDate := "2025-09-01", cashAmount := "$0.40",
         recordDate := "2025-09-01", payDate := "2025-09-02" }] :=
  csv_roundtrip_clean _ (by decide)

/-- C10: a record with an empty `payDate` (and otherwise clean, non-empty,
comma-free fields) is dropped by an encode–decode cycle: its encoded line
ends with a trailing comma, the tokenizer emits no token for the trailing
empty field so the line yields fewer than four tokens and is skipped, and
the record is absent from the decoded history. -/
theorem csv_drops_empty_payDate (ds : List DividendHistory)
    (hall : ∀ d ∈ ds, cleanRecord d) (d : DividendHistory) (hd : d ∈ ds)
    (hpay : d.payDate = "")
    (_hex : d.exDividendDate ≠ "") (_hamt : d.cashAmount ≠ "") (_hrec : d.recordDate ≠ "")
    (_hc1 : ',' ∉ d.exDividendDate.data) (_hc2 : ',' ∉ d.cashAmount.data)
    (_hc3 : ',' ∉ d.recordDate.data) :
    (recordLine d).getLast? = some ',' ∧
    (parseChars (trimChars (recordLine d)) [] false).length < 4 ∧
    lineToRecord (recordLine d) = none ∧
    d ∉ readCsvContent (saveToCsvContent ds) := by
  have hclean := hall d hd
  have hpd : d.payDate.data.isEmpty = true := by rw [hpay]; rfl
  refine ⟨?_, ?_, ?_, ?_⟩
  · unfold recordLine
    rw [getLast?_append_cons, getLast?_cons_ne_nil (by simp), getLast?_append_cons,
      getLast?_cons_ne_nil (by simp), getLast?_append_cons, hpay]
    decide
  · rw [trim_recordLine hclean, parseChars_recordLine hclean, hpd]
    simp
  · rw [lineToRecord_recordLine hclean, hpd]
    rfl
  · rw [readCsv_saveToCsv ds hall]
    intro hmem
    have := (List.mem_filter.mp hmem).2
    rw [hpd] at this
    exact Bool.noConfusion this

/-- Witness for C10: in a concrete two-record history the record with the
empty `payDate` is dropped while the other record survives. -/
theorem csv_drops_empty_payDate_witness :
    (recordLine { exDividendDate := "2025-09-01", cashAmount := "$0.10",
                  recordDate := "2025-09-01", payDate := "" }).getLast? = some ',' ∧
    (parseChars (trimChars (recordLine
      { exDividendDate := "2025-09-01", cashAmount := "$0.10",
        recordDate := "2025-09-01", payDate := "" })) [] false).length < 4 ∧
    lineToRecord (recordLine
      { exDividendDate := "2025-09-01", cashAmount := "$0.10",
        recordDate := "2025-09-01", payDate := "" }) = none ∧
    ({ exDividendDate := "2025-09-01", cashAmount := "$0.10",
       recordDate := "2025-09-01", payDate := "" } : DividendHistory) ∉
      readCsvContent (saveToCsvContent
        [{ exDividendDate := "2025-09-01", cashAmount := "$0.10",
           recordDate := "2025-09-01", payDate := "" },
         { exDividendDate := "2025-10-01", cashAmount := "$0.20",
           recordDate := "2025-10-01", payDate := "2025-10-02" }]) :=
  csv_drops_empty_payDate _ (by decide) _ (by decide) rfl (by decide) (by decide) (by decide)
    (by decide) (by decide) (by decide)

/-! ### Facts about the embedded decimal rendering -/

theorem natDigitsGo_succ (fuel n : Nat) (acc : List Char) :
    natDigitsGo (fuel + 1) n acc =
      if n < 10 then decDigit n :: acc
      else natDigitsGo fuel (n / 10) (decDigit (n % 10) :: acc) := rfl

theorem natDigitsGo_acc (fuel : Nat) :
    ∀ (n : Nat) (acc : List Char),
      natDigitsGo fuel n acc = natDigitsGo fuel n [] ++ acc := by
  induction fuel with
  | zero => intro n acc; rfl
  | succ fuel ih =>
    intro n acc
    rw [natDigitsGo_succ, natDigitsGo_succ]
    by_cases h : n < 10
    · rw [if_pos h, if_pos h]
      rfl
    · rw [if_neg h, if_neg h]
      rw [ih (n / 10) (decDigit (n % 10) :: acc), ih (n / 10) [decDigit (n % 10)]]
      rw [List.append_assoc]
      rfl

theorem natDigitsGo_fuel_eq (fuel1 : Nat) :
    ∀ (fuel2 n : Nat), n < 10 ^ fuel1 → n < 10 ^ fuel2 →
      natDigitsGo (fuel1 + 1) n [] = natDigitsGo (fuel2 + 1) n [] := by
  induction fuel1 with
  | zero =>
    intro fuel2 n h1 _
    have : n = 0 := by simpa using h1
    subst this
    conv_lhs => rw [natDigitsGo_succ, if_pos (by omega : (0 : Nat) < 10)]
    conv_rhs => rw [natDigitsGo_succ, if_pos (by omega : (0 : Nat) < 10)]
  | succ fuel1 ih =>
    intro fuel2 n h1 h2
    by_cases h : n < 10
    · conv_lhs => rw [natDigitsGo_succ, if_pos h]
      conv_rhs => rw [natDigitsGo_succ, if_pos h]
    · cases fuel2 with
      | zero =>
        exfalso
        have : n = 0 := by simpa using h2
        omega
      | succ fuel2 =>
        conv_lhs => rw [natDigitsGo_succ, if_neg h]
        conv_rhs => rw [natDigitsGo_succ, if_neg h]
        have hb1 : n / 10 < 10 ^ fuel1 := by
          rw [Nat.div_lt_iff_lt_mul (by omega)]
          calc n < 10 ^ (fuel1 + 1) := h1
            _ = 10 ^ fuel1 * 10 := by ring
        have hb2 : n / 10 < 10 ^ fuel2 := by
          rw [Nat.div_lt_iff_lt_mul (by omega)]
          calc n < 10 ^ (fuel2 + 1) := h2
            _ = 10 ^ fuel2 * 10 := by ring
        rw [natDigitsGo_acc (fuel1 + 1), natDigitsGo_acc (fuel2 + 1)]
        rw [ih fuel2 (n / 10) hb1 hb2]

theorem natDigits_fuel (fuel n : Nat) (h : n < 10 ^ fuel) :
    natDigitsGo (fuel + 1) n [] = natDigits n := by
  unfold natDigits
  cases hn : n with
  | zero => exact natDigitsGo_fuel_eq fuel 0 0 (pow_pos (by omega : (0 : Nat) < 10) fuel) (by omega)
  | succ n' =>
    exact natDigitsGo_fuel_eq fuel (n' + 1) (n' + 1) (hn ▸ h)
      (Nat.lt_pow_self (by omega) (n' + 1))

theorem natDigits_small {n : Nat} (h : n < 10) : natDigits n = [decDigit n] := by
  unfold natDigits
  rw [natDigitsGo_succ, if_pos h]

theorem natDigits_step {n : Nat} (h : 10 ≤ n) :
    natDigits n = natDigits (n / 10) ++ [decDigit (n % 10)] := by
  conv =>
    lhs
    unfold natDigits
  rw [show n + 1 = (n - 1) + 1 + 1 from by omega]
  rw [natDigitsGo_succ, if_neg (by omega)]
  rw [natDigitsGo_acc]
  rw [natDigits_fuel (n - 1) (n / 10) (by
    have h1 : n / 10 < n := Nat.div_lt_self (by omega) (by omega)
    calc n / 10 < 10 ^ (n / 10) := Nat.lt_pow_self (by omega) _
      _ ≤ 10 ^ (n - 1) := Nat.pow_le_pow_right (by omega) (by omega))]

theorem decDigit_isDigit {k : Nat} (h : k < 10) : isDigit (decDigit k) = true := by
  interval_cases k <;> decide

theorem digitVal_decDigit {k : Nat} (h : k < 10) : digitVal (decDigit k) = k := by
  interval_cases k <;> decide

theorem natDigits_all_digits (n : Nat) : ∀ c ∈ natDigits n, isDigit c = true := by
  induction n using Nat.strong_induction_on with
  | _ n ih =>
    by_cases h : n < 10
    · rw [natDigits_small h]
      intro c hc
      have : c = decDigit n := by simpa using hc
      subst this
      exact decDigit_isDigit h
    · rw [natDigits_step (by omega)]
      intro c hc
      rcases List.mem_append.mp hc with hc | hc
      · exact ih (n / 10) (Nat.div_lt_self (by omega) (by omega)) c hc
      · have : c = decDigit (n % 10) := by simpa using hc
        subst this
        exact decDigit_isDigit (Nat.mod_lt n (by omega))

theorem natDigits_ne_nil (n : Nat) : natDigits n ≠ [] := by
  by_cases h : n < 10
  · rw [natDigits_small h]; simp
  · rw [natDigits_step (by omega)]; simp

theorem digitsToNat_append (ds : List Char) (c : Char) :
    digitsToNat (ds ++ [c]) = digitsToNat ds * 10 + digitVal c := by
  unfold digitsToNat
  rw [List.foldl_append]
  rfl

theorem digitsToNat_natDigits (n : Nat) : digitsToNat (natDigits n) = n := by
  induction n using Nat.strong_induction_on with
  | _ n ih =>
    by_cases h : n < 10
    · rw [natDigits_small h]
      show 0 * 10 + digitVal (decDigit n) = n
      rw [digitVal_decDigit h]
      omega
    · rw [natDigits_step (by omega), digitsToNat_append]
      rw [ih (n / 10) (Nat.div_lt_self (by omega) (by omega))]
      rw [digitVal_decDigit (Nat.mod_lt n (by omega))]
      omega

theorem natDigits_length_one {n : Nat} (h : n < 10) : (natDigits n).length = 1 := by
  rw [natDigits_small h]; rfl

theorem natDigits_length_two {n : Nat} (h1 : 10 ≤ n) (h2 : n ≤ 99) :
    (natDigits n).length = 2 := by
  rw [natDigits_step h1, List.length_append, natDigits_length_one (by omega)]
  rfl

theorem natDigits_length_three {n : Nat} (h1 : 100 ≤ n) (h2 : n ≤ 999) :
    (natDigits n).length = 3 := by
  rw [natDigits_step (by omega), List.length_append,
    natDigits_length_two (by omega) (by omega)]
  rfl

theorem natDigits_length_four {n : Nat} (h1 : 1000 ≤ n) (h2 : n ≤ 9999) :
    (natDigits n).length = 4 := by
  rw [natDigits_step (by omega), List.length_append,
    natDigits_length_three (by omega) (by omega)]
  rfl

/-! ### Facts about the embedded date parser -/

theorem takeWhile_digits_append {a : List Char} (ha : ∀ c ∈ a, isDigit c = true)
    {b : Char} (hb : isDigit b = false) (r : List Char) :
    (a ++ b :: r).takeWhile isDigit = a ∧ (a ++ b :: r).dropWhile isDigit = b :: r := by
  induction a with
  | nil => simp [List.takeWhile_cons, List.dropWhile_cons, hb]
  | cons x xs ih =>
    have hx := ha x (List.mem_cons_self x xs)
    have ih' := ih (fun c hc => ha c (List.mem_cons_of_mem x hc))
    constructor
    · rw [List.cons_append, List.takeWhile_cons, if_pos hx, ih'.1]
    · rw [List.cons_append, List.dropWhile_cons, if_pos hx, ih'.2]

theorem takeWhile_digits_all {a : List Char} (ha : ∀ c ∈ a, isDigit c = true) :
    a.takeWhile isDigit = a ∧ a.dropWhile isDigit = [] := by
  induction a with
  | nil => exact ⟨rfl, rfl⟩
  | cons x xs ih =>
    have hx := ha x (List.mem_cons_self x xs)
    have ih' := ih (fun c hc => ha c (List.mem_cons_of_mem x hc))
    constructor
    · rw [List.takeWhile_cons, if_pos hx, ih'.1]
    · rw [List.dropWhile_cons, if_pos hx, ih'.2]

theorem monthFromAbbrev_month {m : Nat} (h1 : 1 ≤ m) (h2 : m ≤ 12) :
    monthFromAbbrev (monthAbbrevChars m) = some m := by
  interval_cases m <;> decide

theorem monthAbbrev_shape {m : Nat} (h1 : 1 ≤ m) (h2 : m ≤ 12) :
    ∃ a1 a2 a3, monthAbbrevChars m = [a1, a2, a3] ∧ isWs a1 = false := by
  interval_cases m <;> exact ⟨_, _, _, rfl, by decide⟩

theorem isDigit_not_ws {c : Char} (h : isDigit c = true) : isWs c = false := by
  have hb : 48 ≤ c.toNat ∧ c.toNat ≤ 57 := of_decide_eq_true h
  have h1 : (c == ' ') = false :=
    beq_eq_false_iff_ne.mpr (fun hc => by subst hc; revert hb; decide)
  have h2 : (c == '\t') = false :=
    beq_eq_false_iff_ne.mpr (fun hc => by subst hc; revert hb; decide)
  have h3 : (c == '\n') = false :=
    beq_eq_false_iff_ne.mpr (fun hc => by subst hc; revert hb; decide)
  have h4 : (c == '\r') = false :=
    beq_eq_false_iff_ne.mpr (fun hc => by subst hc; revert hb; decide)
  rw [isWs, h1, h2, h3, h4]
  rfl

theorem mem_of_getLastSome {l : List Char} {c : Char} (h : l.getLast? = some c) : c ∈ l := by
  obtain ⟨hne, heq⟩ := List.mem_getLast?_eq_getLast (Option.mem_def.mpr h)
  rw [heq]
  exact List.getLast_mem hne

theorem daysInMonth_le31 (y m : Nat) : daysInMonth y m ≤ 31 := by
  unfold daysInMonth
  split
  · split <;> omega
  · split <;> omega

theorem renderMonDD_data {m d y : Nat} {a1 a2 a3 : Char}
    (hab : monthAbbrevChars m = [a1, a2, a3]) :
    (renderMonDD m d y).data =
      a1 :: a2 :: a3 :: ' ' :: (natDigits d ++ ',' :: ' ' :: natDigits y) := by
  unfold renderMonDD
  rw [hab]
  rfl

theorem trim_renderMonDD {m d y : Nat} (h1 : 1 ≤ m) (h2 : m ≤ 12) :
    trimChars (renderMonDD m d y).data = (renderMonDD m d y).data := by
  obtain ⟨a1, a2, a3, hab, ha1⟩ := monthAbbrev_shape h1 h2
  rw [renderMonDD_data hab]
  apply trimChars_eq_self
  · intro c hc
    have hcc : a1 = c := by simpa using hc
    subst hcc
    exact ha1
  · intro c hc
    rw [getLast?_cons_ne_nil (by simp)] at hc
    rw [getLast?_cons_ne_nil (by simp)] at hc
    rw [getLast?_cons_ne_nil (by simp)] at hc
    rw [getLast?_cons_ne_nil (by simp)] at hc
    rw [getLast?_append_cons] at hc
    rw [getLast?_cons_ne_nil (by simp)] at hc
    rw [getLast?_cons_ne_nil (natDigits_ne_nil y)] at hc
    exact isDigit_not_ws (natDigits_all_digits y c (mem_of_getLastSome hc))

theorem jsDateParse_cons (c1 c2 c3 c4 : Char) (rest : List Char) :
    jsDateParse (String.mk (c1 :: c2 :: c3 :: c4 :: rest)) =
      if c4 = ' ' then
        match monthFromAbbrev [c1, c2, c3] with
        | none => none
        | some m =>
          if (rest.takeWhile isDigit).length = 1 ∨ (rest.takeWhile isDigit).length = 2 then
            match rest.dropWhile isDigit with
            | r1 :: r2 :: rest2 =>
              if r1 = ',' ∧ r2 = ' ' then
                if (rest2.takeWhile isDigit).length = 4 ∧ rest2.dropWhile isDigit = [] then
                  if validDate (digitsToNat (rest2.takeWhile isDigit)) m
                      (digitsToNat (rest.takeWhile isDigit)) then
                    some (digitsToNat (rest2.takeWhile isDigit), m,
                      digitsToNat (rest.takeWhile isDigit))
                  else none
                else none
              else none
            | _ => none
          else none
      else none := rfl

theorem jsDateParse_render {y m d : Nat} (hv : validDate y m d) :
    jsDateParse (renderMonDD m d y) = some (y, m, d) := by
  obtain ⟨hy1, hy2, hm1, hm2, hd1, hd2⟩ := hv
  have hd31 : d ≤ 31 := le_trans hd2 (daysInMonth_le31 y m)
  obtain ⟨a1, a2, a3, hab, ha1⟩ := monthAbbrev_shape hm1 hm2
  have hrender : renderMonDD m d y =
      String.mk (a1 :: a2 :: a3 :: ' ' :: (natDigits d ++ ',' :: ' ' :: natDigits y)) := by
    conv_lhs => rw [← strMk_data (renderMonDD m d y)]
    rw [renderMonDD_data hab]
  have htw := takeWhile_digits_append (natDigits_all_digits d)
    (show isDigit ',' = false by decide) (' ' :: natDigits y)
  have hty := takeWhile_digits_all (natDigits_all_digits y)
  have hlen_d : (natDigits d).length = 1 ∨ (natDigits d).length = 2 := by
    by_cases h : d < 10
    · exact Or.inl (natDigits_length_one h)
    · exact Or.inr (natDigits_length_two (by omega) (by omega))
  rw [hrender, jsDateParse_cons, if_pos rfl, ← hab, monthFromAbbrev_month hm1 hm2]
  simp only [htw.1, htw.2, hty.1, hty.2]
  rw [if_pos hlen_d]
  rw [if_pos (⟨trivial, trivial⟩ : True ∧ True)]
  rw [if_pos (⟨natDigits_length_four hy1 hy2, trivial⟩ : (natDigits y).length = 4 ∧ True)]
  rw [digitsToNat_natDigits, digitsToNat_natDigits]
  exact if_pos ⟨hy1, hy2, hm1, hm2, hd1, hd2⟩

theorem strMk_append (a b : List Char) : String.mk a ++ String.mk b = String.mk (a ++ b) := rfl

/-! ### Claim about the Record Normalizer -/

/-- C4: `normalizeDate` (the embedding of `formatDateToIso`, a total
function — the source's try/catch means it never raises) returns its input
unchanged when the input is empty or whitespace-only, returns its input
unchanged when the trimmed input does not parse as a calendar date, and
maps every valid "Mon DD, YYYY" input to the zero-padded `YYYY-MM-DD` form
of the parsed year, month and day. The host date parser is modelled on the
"Mon DD, YYYY" format class named by the function's own documentation. -/
theorem formatDateToIso_spec :
    (∀ s : String, jsTrim s = "" → formatDateToIso s = s) ∧
    (∀ s : String, jsDateParse (jsTrim s) = none → formatDateToIso s = s) ∧
    (∀ y m d : Nat, validDate y m d →
      formatDateToIso (renderMonDD m d y) = isoForm y m d) := by
  refine ⟨?_, ?_, ?_⟩
  · intro s h
    unfold formatDateToIso
    rw [if_pos h]
  · intro s h
    unfold formatDateToIso
    by_cases ht : jsTrim s = ""
    · rw [if_pos ht]
    · rw [if_neg ht, h]
  · intro y m d hv
    obtain ⟨hy1, hy2, hm1, hm2, hd1, hd2⟩ := hv
    have htrim : jsTrim (renderMonDD m d y) = renderMonDD m d y := by
      unfold jsTrim
      rw [trim_renderMonDD hm1 hm2, strMk_data]
    have hne : jsTrim (renderMonDD m d y) ≠ "" := by
      rw [htrim]
      intro he
      obtain ⟨a1, a2, a3, hab, _⟩ := monthAbbrev_shape hm1 hm2
      have hdd := congrArg String.data he
      rw [renderMonDD_data hab] at hdd
      exact List.noConfusion hdd
    unfold formatDateToIso
    rw [if_neg hne, htrim, jsDateParse_render ⟨hy1, hy2, hm1, hm2, hd1, hd2⟩]
    show String.mk (natDigits y) ++ String.mk ['-'] ++ String.mk (pad2Chars m) ++
        String.mk ['-'] ++ String.mk (pad2Chars d) = isoForm y m d
    rw [strMk_append, strMk_append, strMk_append]
    unfold isoForm
    congr 1
    simp

/-- Witness for C4: a whitespace-only input and an unparseable input come
back unchanged, and "Oct 31, 2025" (the rendering of 31 October 2025)
normalizes to "2025-10-31". -/
theorem formatDateToIso_spec_witness :
    formatDateToIso "   " = "   " ∧
    formatDateToIso "not a date" = "not a date" ∧
    formatDateToIso (renderMonDD 10 31 2025) = isoForm 2025 10 31 :=
  ⟨formatDateToIso_spec.1 "   " (by decide),
   formatDateToIso_spec.2.1 "not a date" (by decide),
   formatDateToIso_spec.2.2 2025 10 31 (by decide)⟩
